import Mathlib

/-!
Shallow embedding of the incremental-file chain validator.

The repository contains four executable variants of the same validator
script (two in `example-streams.js`, one in each unnamed part):

* variant FE — `async.filterSeries` + `fs.readFile`, `.gitkeep` skip,
  `.trim()` on tokens (example-streams.js lines 52-91 of the combined file);
* variant EE — `async.eachSeries` + `fs.readFile`, `.trim()` on tokens,
  `return false` on mismatch (example-streams.js lines 92-129);
* variant FH — `async.filterSeries` + highland `split().take(2)`,
  `.gitkeep` skip, no trim (unnamed part);
* variant EH — `async.eachSeries` + highland `split().take(2)`, no trim
  (example-streams.js lines 1-51).

JavaScript strings are modelled as `List Char`.  Each variant's per-file
iteratee becomes a step function `JStr → IncFile → Option (JStr × Bool)`:
`some (latest2, accepted)` when the iteratee calls its async callback
(`cb()` / `cb(null, true)`), and `none` when the callback is never invoked
(read error branches that only log, the `return false` mismatch branch of
variant EE, and an exception thrown by indexing `lines[1]` when fewer than
two lines exist).  When a step yields `none`, `async.eachSeries` /
`async.filterSeries` never advances and the final callback is never
reached, so the whole run produces no result (`none`).
-/

/-- A JavaScript string, modelled as its list of characters. -/
abbrev JStr := List Char

/-- The character list of a Lean string literal (used to write JS string
literals from the source). -/
def jsStr (s : String) : JStr := s.toList

/-- JavaScript truthiness of a string: the empty string is falsy, every
other string is truthy (used by `if (latest && ...)`). -/
def jsTruthy : JStr → Bool
  | [] => false
  | _ :: _ => true

/-- `str.split(sep)` for a one-character separator, as in JavaScript:
`"".split(sep)` is `[""]`, and the result always has one more piece than
the number of separator occurrences. -/
def splitOnChar (sep : Char) : JStr → List JStr
  | [] => [[]]
  | c :: cs =>
    match splitOnChar sep cs with
    | [] => [[]]
    | l :: ls => if c = sep then [] :: l :: ls else (c :: l) :: ls

/-- `arr.pop()` on the (always nonempty) result of `split`: the last
element of the list. -/
def jsLast : List JStr → JStr
  | [] => []
  | [x] => x
  | _ :: x :: xs => jsLast (x :: xs)

/-- `str.trim()`: strip leading and trailing whitespace. -/
def jsTrim (s : JStr) : JStr :=
  ((s.dropWhile Char.isWhitespace).reverse.dropWhile Char.isWhitespace).reverse

/-- Remove one trailing carriage return, if present.  Used to model the
`\r?` part of highland's `split()` separator. -/
def stripCR (l : JStr) : JStr :=
  if l.getLast? = some '\r' then l.dropLast else l

/-- Highland's `split()`: split the stream contents on the regular
expression `\r?\n`.  Equivalently: split on `'\n'`, then remove a trailing
`'\r'` from every piece that was actually terminated by a `'\n'` (that is,
from every piece but the last). -/
def splitLinesHighland (s : JStr) : List JStr :=
  ((splitOnChar '\n' s).dropLast.map stripCR) ++ [(splitOnChar '\n' s).getLastD []]

/-- The array delivered to `toArray` after `split().take(2)`: the first
two lines produced by highland's split. -/
def hlTake2 (s : JStr) : List JStr := (splitLinesHighland s).take 2

/-- One file of the `incrementals` directory: its name, its byte contents,
and whether reading it fails (`fs.readFile` error / stream `error` event). -/
structure IncFile where
  name : String
  content : JStr
  readError : Bool

/-- `lines[1].split(' ').pop().trim()` of the eager (`fs.readFile` +
`split('\n')`) variants: the previous-timestamp token of a file. -/
def prevEager (f : IncFile) : JStr :=
  jsTrim (jsLast (splitOnChar ' ' ((splitOnChar '\n' f.content).getD 1 [])))

/-- `lines[0].split(' ').pop().trim()` of the eager variants: the
increment-timestamp token of a file. -/
def curEager (f : IncFile) : JStr :=
  jsTrim (jsLast (splitOnChar ' ' ((splitOnChar '\n' f.content).getD 0 [])))

/-- `lines[1].split(' ').pop()` of the highland variants (no `.trim()`). -/
def prevHighland (f : IncFile) : JStr :=
  jsLast (splitOnChar ' ' ((hlTake2 f.content).getD 1 []))

/-- `lines[0].split(' ').pop()` of the highland variants (no `.trim()`). -/
def curHighland (f : IncFile) : JStr :=
  jsLast (splitOnChar ' ' ((hlTake2 f.content).getD 0 []))

/-- Variant FE iteratee (`async.filterSeries` + `fs.readFile`):
skip `.gitkeep` with `cb()`; on read error only log, never call `cb`
(`none`); indexing `lines[1]` with fewer than two lines throws (`none`);
on token mismatch `return cb()` (rejected, state unchanged); otherwise
update `latest` and `cb(null, true)`. -/
def stepFilterEager (latest : JStr) (f : IncFile) : Option (JStr × Bool) :=
  if f.name = ".gitkeep" then some (latest, false)
  else if f.readError then none
  else if (splitOnChar '\n' f.content).length < 2 then none
  else if jsTruthy latest ∧ latest ≠ prevEager f then some (latest, false)
  else some (curEager f, true)

/-- Variant EE iteratee (`async.eachSeries` + `fs.readFile`): on read
error only log (`none`); fewer than two lines throws (`none`); on token
mismatch `return false` — the callback is never invoked (`none`);
otherwise update `latest`, push the filename and `cb()`. -/
def stepEachEager (latest : JStr) (f : IncFile) : Option (JStr × Bool) :=
  if f.readError then none
  else if (splitOnChar '\n' f.content).length < 2 then none
  else if jsTruthy latest ∧ latest ≠ prevEager f then none
  else some (curEager f, true)

/-- Variant FH iteratee (`async.filterSeries` + highland): skip `.gitkeep`
with `cb()`; an unreadable stream emits an unhandled `error` event
(`none`); `lines[1]` on a shorter array throws (`none`); mismatch
`return cb()`; otherwise update `latest` and `cb(null, true)`. -/
def stepFilterHighland (latest : JStr) (f : IncFile) : Option (JStr × Bool) :=
  if f.name = ".gitkeep" then some (latest, false)
  else if f.readError then none
  else if (hlTake2 f.content).length < 2 then none
  else if jsTruthy latest ∧ latest ≠ prevHighland f then some (latest, false)
  else some (curHighland f, true)

/-- Variant EH iteratee (`async.eachSeries` + highland): like FH but
without the `.gitkeep` skip; on mismatch `cb()` without pushing; on accept
update `latest`, push the filename and `cb()`. -/
def stepEachHighland (latest : JStr) (f : IncFile) : Option (JStr × Bool) :=
  if f.readError then none
  else if (hlTake2 f.content).length < 2 then none
  else if jsTruthy latest ∧ latest ≠ prevHighland f then some (latest, false)
  else some (curHighland f, true)

/-- The sequential driver shared by `async.filterSeries` and
`async.eachSeries`-with-push: process the (already sorted) files one at a
time, threading `latest` through; collect the names of accepted files in
processing order; deliver `some (finalLatest, acceptedNames)` to the final
callback, or `none` when some iteratee never calls its callback (the run
stalls / crashes and the final callback is never reached). -/
def runSeries (step : JStr → IncFile → Option (JStr × Bool)) (latest : JStr) :
    List IncFile → Option (JStr × List String)
  | [] => some (latest, [])
  | f :: fs =>
    match step latest f with
    | none => none
    | some (latest2, ok) =>
      match runSeries step latest2 fs with
      | none => none
      | some (final, names) => some (final, if ok then f.name :: names else names)

/-- The whole run of variant FE. -/
def runFilterEager (latest : JStr) (fs : List IncFile) : Option (JStr × List String) :=
  runSeries stepFilterEager latest fs

/-- The whole run of variant EE. -/
def runEachEager (latest : JStr) (fs : List IncFile) : Option (JStr × List String) :=
  runSeries stepEachEager latest fs

/-- The whole run of variant FH. -/
def runFilterHighland (latest : JStr) (fs : List IncFile) : Option (JStr × List String) :=
  runSeries stepFilterHighland latest fs

/-- The whole run of variant EH. -/
def runEachHighland (latest : JStr) (fs : List IncFile) : Option (JStr × List String) :=
  runSeries stepEachHighland latest fs

/-- The hardcoded initial value of `latest` in every variant:
`let latest = '20151009_194541';`. -/
def baseline : JStr := jsStr "20151009_194541"

/-- Whether a step accepts the file (ends in `cb(null, true)` /
`validFiles.push`). -/
def accepts (step : JStr → IncFile → Option (JStr × Bool)) (latest : JStr)
    (f : IncFile) : Bool :=
  match step latest f with
  | some (_, true) => true
  | _ => false

/-- A file on which the eager variants run without stalling or throwing:
it is readable, not the ignored placeholder, and its contents contain at
least two lines. -/
def goodEagerFile (f : IncFile) : Prop :=
  f.readError = false ∧ f.name ≠ ".gitkeep" ∧ 2 ≤ (splitOnChar '\n' f.content).length

/-- A file on which the highland variants run without stalling or
throwing. -/
def goodHighlandFile (f : IncFile) : Prop :=
  f.readError = false ∧ f.name ≠ ".gitkeep" ∧ 2 ≤ (hlTake2 f.content).length

instance (f : IncFile) : Decidable (goodEagerFile f) := by
  unfold goodEagerFile; infer_instance

instance (f : IncFile) : Decidable (goodHighlandFile f) := by
  unfold goodHighlandFile; infer_instance

/-- The substring of a line after its last space (the whole line when it
contains no space) — the specification's description of the token. -/
def afterLastSpace : JStr → JStr
  | [] => []
  | c :: cs =>
    if ' ' ∈ cs then afterLastSpace cs
    else if c = ' ' then cs else c :: cs

/-- The chain condition: the first file's previous token equals the given
token, and each later file's previous token equals the preceding file's
current token (parametrized by the variant's extraction functions). -/
def chainFromB (prevF curF : IncFile → JStr) : JStr → List IncFile → Bool
  | _, [] => true
  | b, f :: fs => (prevF f == b) && chainFromB prevF curF (curF f) fs

/-- Number of characters a lazy line reader pulls from the source before
it has produced `n` complete lines: it stops right after the `n`-th line
terminator, or consumes everything when fewer terminators exist.  Models
the demand made by highland's `split().take(n)`. -/
def charsUntilLines : Nat → JStr → Nat
  | _, [] => 0
  | 0, _ :: _ => 0
  | n + 1, c :: cs => 1 + charsUntilLines (if c = '\n' then n else n + 1) cs

/-- Characters consumed by the highland pipeline `split().take(2)`. -/
def consumedHighland (content : JStr) : Nat := charsUntilLines 2 content

/-- Characters consumed by `fs.readFile`: always the entire file. -/
def consumedEager (content : JStr) : Nat := content.length

/-! ### Concrete files used in witnesses and counterexamples -/

/-- A well-formed incremental file chaining from the hardcoded baseline. -/
def wf1 : IncFile :=
  ⟨"inc1", jsStr "-- Increment timestamp: T1\n-- Previous timestamp: 20151009_194541\n", false⟩

/-- A well-formed incremental file chaining from `wf1`. -/
def wf2 : IncFile :=
  ⟨"inc2", jsStr "-- Increment timestamp: T2\n-- Previous timestamp: T1\n", false⟩

/-- A well-formed file whose previous token matches nothing in the chain. -/
def mmFile : IncFile :=
  ⟨"bad", jsStr "-- Increment timestamp: T9\n-- Previous timestamp: 99999999_999999\n", false⟩

/-- A file whose source ends before a second line exists. -/
def shortFile : IncFile :=
  ⟨"short", jsStr "-- Increment timestamp only, no second line", false⟩

/-- A file whose byte source cannot be opened. -/
def errFile : IncFile := ⟨"broken", [], true⟩

/-- A file whose second header line carries a tab right after the token. -/
def tabFile : IncFile :=
  ⟨"tab", jsStr "-- Increment timestamp: A\n-- Previous timestamp: B\t\n", false⟩

/-- Two short header lines followed by 200 bytes of filler. -/
def bigContent : JStr :=
  jsStr "-- Increment timestamp: T1\n-- Previous timestamp: T0\n" ++ List.replicate 200 'x'

/-- First header line used in the terminator-convention witness. -/
def wl1 : JStr := jsStr "-- Increment timestamp: T1"

/-- Second header line used in the terminator-convention witness. -/
def wl2 : JStr := jsStr "-- Previous timestamp: T0"

/-- Remaining file contents used in the terminator-convention witness. -/
def wrest : JStr := jsStr "lots of filler after the header"

/-! ### Basic lemmas about the JavaScript string operations -/

theorem splitOnChar_ne_nil (sep : Char) (l : JStr) : splitOnChar sep l ≠ [] := by
  cases l with
  | nil => simp [splitOnChar]
  | cons c cs =>
    unfold splitOnChar
    cases h : splitOnChar sep cs with
    | nil => simp
    | cons x xs => by_cases hc : c = sep <;> simp [hc]

theorem splitOnChar_of_not_mem {sep : Char} {l : JStr} (h : sep ∉ l) :
    splitOnChar sep l = [l] := by
  induction l with
  | nil => rfl
  | cons c cs ih =>
    have hc : c ≠ sep := fun hc => h (hc ▸ List.mem_cons_self c cs)
    have hcs : sep ∉ cs := fun hm => h (List.mem_cons_of_mem c hm)
    unfold splitOnChar
    rw [ih hcs]
    simp [hc]

theorem two_le_length_splitOnChar {sep : Char} {l : JStr} (h : sep ∈ l) :
    2 ≤ (splitOnChar sep l).length := by
  induction l with
  | nil => cases h
  | cons c cs ih =>
    unfold splitOnChar
    cases hs : splitOnChar sep cs with
    | nil => exact absurd hs (splitOnChar_ne_nil sep cs)
    | cons x xs =>
      by_cases hc : c = sep
      · simp [hc]
      · have hm : sep ∈ cs := by
          rcases List.mem_cons.mp h with h0 | h1
          · exact absurd h0.symm hc
          · exact h1
        have h2 := ih hm
        rw [hs] at h2
        simp only [if_neg hc, List.length_cons] at h2 ⊢
        omega

theorem splitOnChar_cons (sep c : Char) (cs : JStr) :
    splitOnChar sep (c :: cs) =
      match splitOnChar sep cs with
      | [] => [[]]
      | l :: ls => if c = sep then [] :: l :: ls else (c :: l) :: ls := rfl

theorem splitOnChar_append {sep : Char} {a : JStr} (b : JStr) (h : sep ∉ a) :
    splitOnChar sep (a ++ sep :: b) = a :: splitOnChar sep b := by
  induction a with
  | nil =>
    rw [List.nil_append, splitOnChar_cons]
    cases hs : splitOnChar sep b with
    | nil => exact absurd hs (splitOnChar_ne_nil sep b)
    | cons x xs => simp
  | cons c cs ih =>
    have hc : c ≠ sep := fun hc => h (hc ▸ List.mem_cons_self c cs)
    have hcs : sep ∉ cs := fun hm => h (List.mem_cons_of_mem c hm)
    rw [List.cons_append, splitOnChar_cons, ih hcs]
    simp [hc]

theorem jsLast_cons {xs : List JStr} (x : JStr) (h : xs ≠ []) :
    jsLast (x :: xs) = jsLast xs := by
  cases xs with
  | nil => exact absurd rfl h
  | cons y ys => rfl

theorem jsLast_splitOnChar_space (l : JStr) :
    jsLast (splitOnChar ' ' l) = afterLastSpace l := by
  induction l with
  | nil => rfl
  | cons c cs ih =>
    rw [splitOnChar_cons]
    cases hs : splitOnChar ' ' cs with
    | nil => exact absurd hs (splitOnChar_ne_nil ' ' cs)
    | cons x xs =>
      rw [hs] at ih
      show jsLast (if c = ' ' then [] :: x :: xs else (c :: x) :: xs) = afterLastSpace (c :: cs)
      simp only [afterLastSpace]
      by_cases hmem : ' ' ∈ cs
      · have h2 : 2 ≤ (splitOnChar ' ' cs).length := two_le_length_splitOnChar hmem
        rw [hs] at h2
        have hxs : xs ≠ [] := by
          cases xs with
          | nil => simp at h2
          | cons _ _ => simp
        by_cases hc : c = ' '
        · rw [if_pos hc, if_pos hmem]
          exact ih
        · rw [if_neg hc, if_pos hmem]
          rw [jsLast_cons _ hxs, ← jsLast_cons x hxs]
          exact ih
      · have hsingle : x :: xs = [cs] := hs.symm.trans (splitOnChar_of_not_mem hmem)
        obtain ⟨hx, hxs⟩ : x = cs ∧ xs = [] := by simpa using hsingle
        subst hx; subst hxs
        by_cases hc : c = ' '
        · rw [if_pos hc, if_neg hmem, if_pos hc]
          rfl
        · rw [if_neg hc, if_neg hmem, if_neg hc]
          rfl

theorem afterLastSpace_cons (c : Char) (cs : JStr) :
    afterLastSpace (c :: cs) =
      if ' ' ∈ cs then afterLastSpace cs else if c = ' ' then cs else c :: cs := rfl

theorem afterLastSpace_append {c : Char} (l : JStr) (hc : c ≠ ' ') :
    afterLastSpace (l ++ [c]) = afterLastSpace l ++ [c] := by
  induction l with
  | nil => simp [afterLastSpace, hc]
  | cons d ds ih =>
    rw [List.cons_append, afterLastSpace_cons, afterLastSpace_cons]
    by_cases hm : ' ' ∈ ds
    · rw [if_pos (List.mem_append.mpr (Or.inl hm)), if_pos hm, ih]
    · have hm2 : ' ' ∉ ds ++ [c] := by
        intro hmm
        rcases List.mem_append.mp hmm with hmm | hmm
        · exact hm hmm
        · simp only [List.mem_singleton] at hmm
          exact hc hmm.symm
      rw [if_neg hm2, if_neg hm]
      by_cases hd : d = ' '
      · rw [if_pos hd, if_pos hd]
      · rw [if_neg hd, if_neg hd, List.cons_append]

theorem dropWhile_append_cases (p : Char → Bool) (a b : JStr) :
    (a ++ b).dropWhile p =
      if (a.dropWhile p).isEmpty then b.dropWhile p else a.dropWhile p ++ b := by
  induction a with
  | nil => simp
  | cons x xs ih =>
    by_cases hx : p x = true
    · rw [List.cons_append, List.dropWhile_cons_of_pos hx, List.dropWhile_cons_of_pos hx, ih]
    · have hx2 : p x = false := by
        cases hpx : p x
        · rfl
        · exact absurd hpx hx
      rw [List.cons_append, List.dropWhile_cons_of_neg (by simp [hx2]),
        List.dropWhile_cons_of_neg (by simp [hx2])]
      simp

theorem jsTrim_append_ws {c : Char} (l : JStr) (hc : c.isWhitespace = true) :
    jsTrim (l ++ [c]) = jsTrim l := by
  unfold jsTrim
  cases hd : l.dropWhile Char.isWhitespace with
  | nil =>
    have h1 : (l ++ [c]).dropWhile Char.isWhitespace = [] := by
      rw [dropWhile_append_cases, hd]
      simp [List.dropWhile, hc]
    rw [h1]
  | cons y ys =>
    have h1 : (l ++ [c]).dropWhile Char.isWhitespace = (y :: ys) ++ [c] := by
      rw [dropWhile_append_cases, hd]
      simp
    rw [h1, List.reverse_append]
    simp only [List.reverse_singleton, List.singleton_append,
      List.dropWhile_cons_of_pos hc]

theorem stripCR_append_cr (l : JStr) : stripCR (l ++ ['\r']) = l := by
  unfold stripCR
  rw [if_pos (List.getLast?_concat l), List.dropLast_concat]

theorem stripCR_of_not_mem {l : JStr} (h : '\r' ∉ l) : stripCR l = l := by
  unfold stripCR
  rw [if_neg ?_]
  intro hc
  exact h (List.mem_of_mem_getLast? hc)

theorem hlTake2_construct (l1 l2 rest : JStr) (h1 : '\n' ∉ l1) (h2 : '\n' ∉ l2) :
    hlTake2 (l1 ++ '\n' :: (l2 ++ '\n' :: rest)) = [stripCR l1, stripCR l2] := by
  unfold hlTake2 splitLinesHighland
  rw [splitOnChar_append _ h1, splitOnChar_append _ h2]
  cases hr : splitOnChar '\n' rest with
  | nil => exact absurd hr (splitOnChar_ne_nil '\n' rest)
  | cons r rs => simp [List.dropLast, List.take]

theorem charsUntilLines_zero (t : JStr) : charsUntilLines 0 t = 0 := by
  cases t <;> rfl

theorem charsUntilLines_append {l : JStr} (n : Nat) (t : JStr) (h : '\n' ∉ l) :
    charsUntilLines (n + 1) (l ++ '\n' :: t) = l.length + 1 + charsUntilLines n t := by
  induction l with
  | nil => simp [charsUntilLines]
  | cons c cs ih =>
    have hc : c ≠ '\n' := fun hc => h (hc ▸ List.mem_cons_self c cs)
    have hcs : '\n' ∉ cs := fun hm => h (List.mem_cons_of_mem c hm)
    rw [List.cons_append]
    show 1 + charsUntilLines (if c = '\n' then n else n + 1) (cs ++ '\n' :: t) =
      (c :: cs).length + 1 + charsUntilLines n t
    rw [if_neg hc, ih hcs, List.length_cons]
    omega

/-! ### Lemmas about the sequential driver -/

theorem runSeries_cons (step : JStr → IncFile → Option (JStr × Bool))
    (latest : JStr) (f : IncFile) (fs : List IncFile) :
    runSeries step latest (f :: fs) =
      match step latest f with
      | none => none
      | some (latest2, ok) =>
        match runSeries step latest2 fs with
        | none => none
        | some (final, names) => some (final, if ok then f.name :: names else names) := rfl

theorem runSeries_cons_none {step : JStr → IncFile → Option (JStr × Bool)}
    {latest : JStr} {f : IncFile} (fs : List IncFile) (h : step latest f = none) :
    runSeries step latest (f :: fs) = none := by
  rw [runSeries_cons, h]

theorem runSeries_cons_reject {step : JStr → IncFile → Option (JStr × Bool)}
    {latest latest2 : JStr} {f : IncFile} (fs : List IncFile)
    (h : step latest f = some (latest2, false)) :
    runSeries step latest (f :: fs) = runSeries step latest2 fs := by
  rw [runSeries_cons, h]
  dsimp only
  cases hr : runSeries step latest2 fs with
  | none => rfl
  | some p =>
    cases p
    simp

theorem runSeries_cons_accept {step : JStr → IncFile → Option (JStr × Bool)}
    {latest latest2 : JStr} {f : IncFile} (fs : List IncFile)
    (h : step latest f = some (latest2, true)) :
    runSeries step latest (f :: fs) =
      (runSeries step latest2 fs).map (fun p => (p.1, f.name :: p.2)) := by
  rw [runSeries_cons, h]
  dsimp only
  cases hr : runSeries step latest2 fs with
  | none => rfl
  | some p =>
    cases p
    simp

/-! ### Accept / reject behavior of the four iteratees -/

theorem stepFilterEager_accept {b : JStr} {f : IncFile} (hg : goodEagerFile f)
    (hok : jsTruthy b = false ∨ b = prevEager f) :
    stepFilterEager b f = some (curEager f, true) := by
  obtain ⟨hre, hgk, hlen⟩ := hg
  have hno : ¬(jsTruthy b = true ∧ b ≠ prevEager f) := by
    rcases hok with h | h
    · intro hand
      rw [h] at hand
      exact absurd hand.1 (by simp)
    · intro hand
      exact hand.2 h
  unfold stepFilterEager
  rw [if_neg hgk, if_neg (by simp [hre]), if_neg (by omega), if_neg hno]

theorem stepFilterEager_reject {b : JStr} {f : IncFile} (hg : goodEagerFile f)
    (ht : jsTruthy b = true) (hm : b ≠ prevEager f) :
    stepFilterEager b f = some (b, false) := by
  obtain ⟨hre, hgk, hlen⟩ := hg
  unfold stepFilterEager
  rw [if_neg hgk, if_neg (by simp [hre]), if_neg (by omega), if_pos ⟨ht, hm⟩]

theorem stepEachEager_accept {b : JStr} {f : IncFile} (hg : goodEagerFile f)
    (hok : jsTruthy b = false ∨ b = prevEager f) :
    stepEachEager b f = some (curEager f, true) := by
  obtain ⟨hre, hgk, hlen⟩ := hg
  have hno : ¬(jsTruthy b = true ∧ b ≠ prevEager f) := by
    rcases hok with h | h
    · intro hand
      rw [h] at hand
      exact absurd hand.1 (by simp)
    · intro hand
      exact hand.2 h
  unfold stepEachEager
  rw [if_neg (by simp [hre]), if_neg (by omega), if_neg hno]

theorem stepEachEager_reject {b : JStr} {f : IncFile} (hg : goodEagerFile f)
    (ht : jsTruthy b = true) (hm : b ≠ prevEager f) :
    stepEachEager b f = none := by
  obtain ⟨hre, hgk, hlen⟩ := hg
  unfold stepEachEager
  rw [if_neg (by simp [hre]), if_neg (by omega), if_pos ⟨ht, hm⟩]

theorem stepFilterHighland_accept {b : JStr} {f : IncFile} (hg : goodHighlandFile f)
    (hok : jsTruthy b = false ∨ b = prevHighland f) :
    stepFilterHighland b f = some (curHighland f, true) := by
  obtain ⟨hre, hgk, hlen⟩ := hg
  have hno : ¬(jsTruthy b = true ∧ b ≠ prevHighland f) := by
    rcases hok with h | h
    · intro hand
      rw [h] at hand
      exact absurd hand.1 (by simp)
    · intro hand
      exact hand.2 h
  unfold stepFilterHighland
  rw [if_neg hgk, if_neg (by simp [hre]), if_neg (by omega), if_neg hno]

theorem stepFilterHighland_reject {b : JStr} {f : IncFile} (hg : goodHighlandFile f)
    (ht : jsTruthy b = true) (hm : b ≠ prevHighland f) :
    stepFilterHighland b f = some (b, false) := by
  obtain ⟨hre, hgk, hlen⟩ := hg
  unfold stepFilterHighland
  rw [if_neg hgk, if_neg (by simp [hre]), if_neg (by omega), if_pos ⟨ht, hm⟩]

theorem stepEachHighland_accept {b : JStr} {f : IncFile} (hg : goodHighlandFile f)
    (hok : jsTruthy b = false ∨ b = prevHighland f) :
    stepEachHighland b f = some (curHighland f, true) := by
  obtain ⟨hre, hgk, hlen⟩ := hg
  have hno : ¬(jsTruthy b = true ∧ b ≠ prevHighland f) := by
    rcases hok with h | h
    · intro hand
      rw [h] at hand
      exact absurd hand.1 (by simp)
    · intro hand
      exact hand.2 h
  unfold stepEachHighland
  rw [if_neg (by simp [hre]), if_neg (by omega), if_neg hno]

theorem stepEachHighland_reject {b : JStr} {f : IncFile} (hg : goodHighlandFile f)
    (ht : jsTruthy b = true) (hm : b ≠ prevHighland f) :
    stepEachHighland b f = some (b, false) := by
  obtain ⟨hre, hgk, hlen⟩ := hg
  unfold stepEachHighland
  rw [if_neg (by simp [hre]), if_neg (by omega), if_pos ⟨ht, hm⟩]

/-- A perfect chain makes any of the drivers accept every file in order
and finish with the last file's current token (generic in the variant). -/
theorem runSeries_chain (step : JStr → IncFile → Option (JStr × Bool))
    (prevF curF : IncFile → JStr) (good : IncFile → Prop)
    (hstep : ∀ b f, good f → prevF f = b → step b f = some (curF f, true)) :
    ∀ (fs : List IncFile) (b : JStr) (hne : fs ≠ []),
      (∀ f ∈ fs, good f) → chainFromB prevF curF b fs = true →
      runSeries step b fs = some (curF (fs.getLast hne), fs.map (fun f => f.name)) := by
  intro fs
  induction fs with
  | nil =>
    intro b hne
    exact absurd rfl hne
  | cons f fs ih =>
    intro b hne hg hc
    unfold chainFromB at hc
    rw [Bool.and_eq_true, beq_iff_eq] at hc
    obtain ⟨hpf, hcs⟩ := hc
    have hstep1 := hstep b f (hg f (List.mem_cons_self f fs)) hpf
    rw [runSeries_cons_accept fs hstep1]
    cases fs with
    | nil => simp [runSeries, List.getLast]
    | cons g gs =>
      rw [ih (curF f) (List.cons_ne_nil g gs)
        (fun x hx => hg x (List.mem_cons_of_mem f hx)) hcs]
      simp [List.getLast]

/-! ### The claims -/

/-- Claim C1: for every baseline token and every sequence of files (in
processing order) whose previous tokens chain from the baseline through
each predecessor's current token, the validator accepts all the files, the
accepted list is exactly the whole sequence in order, and the final latest
token is the last file's current token.  Proved for the two variants the
claim cites — the eager `eachSeries` run and the highland `filterSeries`
run — each with its own extraction functions. -/
theorem chain_all_accepted (b : JStr) (fs : List IncFile) (hne : fs ≠ [])
    (hgE : ∀ f ∈ fs, goodEagerFile f) (hgH : ∀ f ∈ fs, goodHighlandFile f)
    (hcE : chainFromB prevEager curEager b fs = true)
    (hcH : chainFromB prevHighland curHighland b fs = true) :
    runEachEager b fs = some (curEager (fs.getLast hne), fs.map (fun f => f.name)) ∧
    runFilterHighland b fs = some (curHighland (fs.getLast hne), fs.map (fun f => f.name)) :=
  ⟨runSeries_chain stepEachEager prevEager curEager goodEagerFile
      (fun _ _ hg hp => stepEachEager_accept hg (Or.inr hp.symm)) fs b hne hgE hcE,
   runSeries_chain stepFilterHighland prevHighland curHighland goodHighlandFile
      (fun _ _ hg hp => stepFilterHighland_accept hg (Or.inr hp.symm)) fs b hne hgH hcH⟩

/-- Witness for C1 at a concrete two-file chain starting at the baseline. -/
theorem chain_all_accepted_witness :
    runEachEager baseline [wf1, wf2] =
      some (curEager ([wf1, wf2].getLast (List.cons_ne_nil wf1 [wf2])),
        [wf1, wf2].map (fun f => f.name)) ∧
    runFilterHighland baseline [wf1, wf2] =
      some (curHighland ([wf1, wf2].getLast (List.cons_ne_nil wf1 [wf2])),
        [wf1, wf2].map (fun f => f.name)) :=
  chain_all_accepted baseline [wf1, wf2] (List.cons_ne_nil wf1 [wf2])
    (by decide) (by decide) (by decide) (by decide)

/-- Claim C2: a file is accepted if and only if the current latest token
is unset (falsy) or equals the file's extracted previous token; on
acceptance the latest token becomes the file's current token; on rejection
the step reports exclusion with the latest token unchanged.  Proved for
the two highland `toArray` callbacks the claim cites. -/
theorem accept_iff_unset_or_match (latest : JStr) (f : IncFile)
    (hg : goodHighlandFile f) :
    ((jsTruthy latest = false ∨ latest = prevHighland f) →
      stepEachHighland latest f = some (curHighland f, true) ∧
      stepFilterHighland latest f = some (curHighland f, true)) ∧
    (jsTruthy latest = true → latest ≠ prevHighland f →
      stepEachHighland latest f = some (latest, false) ∧
      stepFilterHighland latest f = some (latest, false)) :=
  ⟨fun h => ⟨stepEachHighland_accept hg h, stepFilterHighland_accept hg h⟩,
   fun ht hm => ⟨stepEachHighland_reject hg ht hm, stepFilterHighland_reject hg ht hm⟩⟩

/-- Witness for C2: the baseline matches `wf1`, which is accepted and
updates the token. -/
theorem accept_iff_unset_or_match_witness :
    stepEachHighland baseline wf1 = some (curHighland wf1, true) ∧
    stepFilterHighland baseline wf1 = some (curHighland wf1, true) :=
  (accept_iff_unset_or_match baseline wf1 (by decide)).1 (Or.inr (by decide))

/-- Claim C4 (the code violates it in variant EE): a token mismatch stalls
the `eachSeries` + `readFile` variant — its iteratee does `return false`
without calling the async callback, so the next file is never evaluated
and the final callback is never reached (`none`) — while the sibling
variants continue past the mismatching file and deliver the result. -/
theorem mismatch_stalls_eachSeries_eager :
    runEachEager baseline [mmFile, wf1] = none ∧
    runFilterEager baseline [mmFile, wf1] = some (curEager wf1, ["inc1"]) ∧
    runFilterHighland baseline [mmFile, wf1] = some (curHighland wf1, ["inc1"]) ∧
    runEachHighland baseline [mmFile, wf1] = some (curHighland wf1, ["inc1"]) := by
  decide

/-- Claim C5: rejecting a file on a token mismatch leaves the latest token
unchanged, and the rest of the run proceeds exactly as if the rejected
file were absent, so the following file is evaluated against the unchanged
token.  Proved for the two mismatch branches the claim cites (highland
`eachSeries` and eager `filterSeries`). -/
theorem rejection_preserves_latest (latest : JStr) (f : IncFile)
    (fs : List IncFile) (hgE : goodEagerFile f) (hgH : goodHighlandFile f)
    (ht : jsTruthy latest = true) (hmE : latest ≠ prevEager f)
    (hmH : latest ≠ prevHighland f) :
    stepEachHighland latest f = some (latest, false) ∧
    runEachHighland latest (f :: fs) = runEachHighland latest fs ∧
    stepFilterEager latest f = some (latest, false) ∧
    runFilterEager latest (f :: fs) = runFilterEager latest fs := by
  have h1 := stepEachHighland_reject hgH ht hmH
  have h2 := stepFilterEager_reject hgE ht hmE
  exact ⟨h1, runSeries_cons_reject fs h1, h2, runSeries_cons_reject fs h2⟩

/-- Witness for C5: the mismatching file is skipped and the run continues
on the unchanged baseline token. -/
theorem rejection_preserves_latest_witness :
    stepEachHighland baseline mmFile = some (baseline, false) ∧
    runEachHighland baseline [mmFile, wf1] = runEachHighland baseline [wf1] ∧
    stepFilterEager baseline mmFile = some (baseline, false) ∧
    runFilterEager baseline [mmFile, wf1] = runFilterEager baseline [wf1] :=
  rejection_preserves_latest baseline mmFile [wf1] (by decide) (by decide)
    (by decide) (by decide) (by decide)

theorem getD_cons_cons_one {α : Type} (x y : α) (t : List α) (d : α) :
    (x :: y :: t).getD 1 d = y := rfl

theorem getD_cons_zero {α : Type} (x : α) (t : List α) (d : α) :
    (x :: t).getD 0 d = x := rfl

set_option maxRecDepth 4000 in
/-- Counterexample to claim C3: on a 253-character file whose two header
lines span only 53 characters, the eager (`fs.readFile`) extraction
consumes all 253 characters — the whole file, growing with the filler —
so it does not stop at the second line terminator and materializes the
full contents; the lazy pipeline needs only 53. -/
theorem eager_reads_entire_file :
    consumedEager bigContent = 253 ∧
    consumedEager bigContent = bigContent.length ∧
    consumedHighland bigContent = 53 := by
  decide

/-- Claim C3 (amended): the highland `split().take(2)` pipeline stops
requesting characters right after the second line terminator — it consumes
exactly the two header lines plus their two terminators, independent of
whatever follows — while the eager `fs.readFile` variants always consume
the entire file, header plus remainder. -/
theorem streaming_consumption_bounded (l1 l2 rest : JStr)
    (h1 : '\n' ∉ l1) (h2 : '\n' ∉ l2) :
    consumedHighland (l1 ++ '\n' :: (l2 ++ '\n' :: rest)) =
      l1.length + l2.length + 2 ∧
    consumedEager (l1 ++ '\n' :: (l2 ++ '\n' :: rest)) =
      l1.length + l2.length + 2 + rest.length := by
  constructor
  · unfold consumedHighland
    have e1 := charsUntilLines_append (l := l1) 1 (l2 ++ '\n' :: rest) h1
    have e2 := charsUntilLines_append (l := l2) 0 rest h2
    norm_num at e1 e2
    rw [e1, e2, charsUntilLines_zero]
    omega
  · unfold consumedEager
    simp only [List.length_append, List.length_cons]
    omega

/-- Witness for C3 (amended) at a concrete header with filler. -/
theorem streaming_consumption_bounded_witness :
    consumedHighland (wl1 ++ '\n' :: (wl2 ++ '\n' :: wrest)) =
      wl1.length + wl2.length + 2 ∧
    consumedEager (wl1 ++ '\n' :: (wl2 ++ '\n' :: wrest)) =
      wl1.length + wl2.length + 2 + wrest.length :=
  streaming_consumption_bounded wl1 wl2 wrest (by decide) (by decide)

/-- Counterexample to claim C6: with a file whose source ends before two
lines exist, the run does not fail with a `MalformedHeaderError` and does
not return the accepted list gathered so far — the already-accepted `wf1`
is lost and the run produces nothing at all. -/
theorem short_header_loses_results :
    runFilterEager baseline [wf1, shortFile] = none ∧
    runFilterHighland baseline [wf1, shortFile] = none := by
  decide

/-- Claim C6 (amended): when a file's source ends before two lines are
available, indexing `lines[1]` throws an unhandled `TypeError` (there is
no `MalformedHeaderError` anywhere in the code); the run halts without
ever reaching the final callback, so not even the accepted list gathered
so far is returned.  A header line without a space separator is not
detected either: the whole line silently becomes the token. -/
theorem short_header_run_no_result (latest : JStr) (f : IncFile)
    (fs : List IncFile) (hre : f.readError = false) (hgk : f.name ≠ ".gitkeep") :
    ((splitOnChar '\n' f.content).length < 2 →
      runFilterEager latest (f :: fs) = none ∧
      runEachEager latest (f :: fs) = none) ∧
    ((hlTake2 f.content).length < 2 →
      runFilterHighland latest (f :: fs) = none ∧
      runEachHighland latest (f :: fs) = none) ∧
    (∀ l : JStr, ' ' ∉ l → jsLast (splitOnChar ' ' l) = l) := by
  refine ⟨fun hlen => ⟨?_, ?_⟩, fun hlen => ⟨?_, ?_⟩, fun l hl => ?_⟩
  · exact runSeries_cons_none fs (by
      unfold stepFilterEager
      rw [if_neg hgk, if_neg (by simp [hre]), if_pos hlen])
  · exact runSeries_cons_none fs (by
      unfold stepEachEager
      rw [if_neg (by simp [hre]), if_pos hlen])
  · exact runSeries_cons_none fs (by
      unfold stepFilterHighland
      rw [if_neg hgk, if_neg (by simp [hre]), if_pos hlen])
  · exact runSeries_cons_none fs (by
      unfold stepEachHighland
      rw [if_neg (by simp [hre]), if_pos hlen])
  · rw [splitOnChar_of_not_mem hl]
    rfl

/-- Witness for C6 (amended) at the concrete one-line file. -/
theorem short_header_run_no_result_witness :
    runFilterEager baseline [shortFile] = none ∧
    runEachEager baseline [shortFile] = none ∧
    runFilterHighland baseline [shortFile] = none ∧
    runEachHighland baseline [shortFile] = none := by
  have h := short_header_run_no_result baseline shortFile [] (by decide) (by decide)
  exact ⟨(h.1 (by decide)).1, (h.1 (by decide)).2,
    (h.2.1 (by decide)).1, (h.2.1 (by decide)).2⟩

/-- Counterexample to claim C7: when the second file's source cannot be
read, the caller receives neither the accepted prefix `["inc1"]` nor the
final token nor the offending file's identity — the error branch only
logs, the callback is never invoked, and the run produces nothing. -/
theorem read_error_returns_nothing :
    runFilterEager baseline [wf1, errFile, wf2] = none ∧
    runEachEager baseline [wf1, errFile, wf2] = none := by
  decide

/-- Claim C7 (amended): a read failure does halt the run — no further file
is processed — but the error branch only logs the error and never invokes
the async callback, so the final callback is never reached and the caller
receives no accepted list, no token, and no offending-file identity. -/
theorem read_error_run_no_result (latest : JStr) (f : IncFile)
    (fs : List IncFile) (hgk : f.name ≠ ".gitkeep") (hre : f.readError = true) :
    runFilterEager latest (f :: fs) = none ∧
    runEachEager latest (f :: fs) = none ∧
    runFilterHighland latest (f :: fs) = none ∧
    runEachHighland latest (f :: fs) = none := by
  refine ⟨runSeries_cons_none fs ?_, runSeries_cons_none fs ?_,
    runSeries_cons_none fs ?_, runSeries_cons_none fs ?_⟩
  · unfold stepFilterEager
    rw [if_neg hgk, if_pos hre]
  · unfold stepEachEager
    rw [if_pos hre]
  · unfold stepFilterHighland
    rw [if_neg hgk, if_pos hre]
  · unfold stepEachHighland
    rw [if_pos hre]

/-- Witness for C7 (amended) at the concrete unreadable file. -/
theorem read_error_run_no_result_witness :
    runFilterEager baseline [errFile] = none ∧
    runEachEager baseline [errFile] = none ∧
    runFilterHighland baseline [errFile] = none ∧
    runEachHighland baseline [errFile] = none :=
  read_error_run_no_result baseline errFile [] (by decide) (by decide)

/-- Counterexample to claim C8: the highland variants do not trim the
extracted token — on a header line whose token is followed by a tab,
extraction yields the token with the tab still attached rather than the
whitespace-trimmed substring after the last space. -/
theorem highland_token_keeps_whitespace :
    prevHighland tabFile = jsStr "B\t" ∧
    jsTrim (afterLastSpace (jsStr "-- Previous timestamp: B\t")) = jsStr "B" ∧
    prevHighland tabFile ≠ jsTrim (afterLastSpace (jsStr "-- Previous timestamp: B\t")) := by
  decide

/-- Claim C8 (amended): `split(' ').pop()` always yields exactly the
substring after the last space of the line (the whole line when it has no
space); the eager variants then `.trim()` it, so their token is the
whitespace-trimmed substring after the last space, while the highland
variants use that substring untrimmed. -/
theorem token_is_suffix_after_last_space :
    (∀ l : JStr, jsLast (splitOnChar ' ' l) = afterLastSpace l) ∧
    (∀ f : IncFile,
      prevEager f = jsTrim (afterLastSpace ((splitOnChar '\n' f.content).getD 1 [])) ∧
      prevHighland f = afterLastSpace ((hlTake2 f.content).getD 1 [])) :=
  ⟨jsLast_splitOnChar_space,
   fun f =>
    ⟨by unfold prevEager; rw [jsLast_splitOnChar_space],
     by unfold prevHighland; rw [jsLast_splitOnChar_space]⟩⟩

/-- Claim C9: header extraction produces the same two tokens whether the
header lines are terminated by bare `\n` or by `\r\n` — in the eager
variants the `\r` survives `split('\n')` but is removed by `.trim()`, and
in the highland variants `split()` consumes the `\r` as part of the
terminator. -/
theorem crlf_lf_same_tokens (nm : String) (l1 l2 rest : JStr)
    (h1n : '\n' ∉ l1) (h1r : '\r' ∉ l1) (h2n : '\n' ∉ l2) (h2r : '\r' ∉ l2) :
    prevEager ⟨nm, l1 ++ '\r' :: '\n' :: (l2 ++ '\r' :: '\n' :: rest), false⟩ =
      prevEager ⟨nm, l1 ++ '\n' :: (l2 ++ '\n' :: rest), false⟩ ∧
    curEager ⟨nm, l1 ++ '\r' :: '\n' :: (l2 ++ '\r' :: '\n' :: rest), false⟩ =
      curEager ⟨nm, l1 ++ '\n' :: (l2 ++ '\n' :: rest), false⟩ ∧
    prevHighland ⟨nm, l1 ++ '\r' :: '\n' :: (l2 ++ '\r' :: '\n' :: rest), false⟩ =
      prevHighland ⟨nm, l1 ++ '\n' :: (l2 ++ '\n' :: rest), false⟩ ∧
    curHighland ⟨nm, l1 ++ '\r' :: '\n' :: (l2 ++ '\r' :: '\n' :: rest), false⟩ =
      curHighland ⟨nm, l1 ++ '\n' :: (l2 ++ '\n' :: rest), false⟩ := by
  have h1nr : '\n' ∉ l1 ++ ['\r'] := by
    intro hm
    rcases List.mem_append.mp hm with hm | hm
    · exact h1n hm
    · simp at hm
  have h2nr : '\n' ∉ l2 ++ ['\r'] := by
    intro hm
    rcases List.mem_append.mp hm with hm | hm
    · exact h2n hm
    · simp at hm
  have e1 : l1 ++ '\r' :: '\n' :: (l2 ++ '\r' :: '\n' :: rest)
      = (l1 ++ ['\r']) ++ '\n' :: ((l2 ++ ['\r']) ++ '\n' :: rest) := by
    simp
  have lines_crlf :
      splitOnChar '\n' ((l1 ++ ['\r']) ++ '\n' :: ((l2 ++ ['\r']) ++ '\n' :: rest))
        = (l1 ++ ['\r']) :: (l2 ++ ['\r']) :: splitOnChar '\n' rest := by
    rw [splitOnChar_append _ h1nr, splitOnChar_append _ h2nr]
  have lines_lf : splitOnChar '\n' (l1 ++ '\n' :: (l2 ++ '\n' :: rest))
      = l1 :: l2 :: splitOnChar '\n' rest := by
    rw [splitOnChar_append _ h1n, splitOnChar_append _ h2n]
  have e1' : hlTake2 ((l1 ++ ['\r']) ++ '\n' :: ((l2 ++ ['\r']) ++ '\n' :: rest))
      = [stripCR (l1 ++ ['\r']), stripCR (l2 ++ ['\r'])] :=
    hlTake2_construct (l1 ++ ['\r']) (l2 ++ ['\r']) rest h1nr h2nr
  have e2' : hlTake2 (l1 ++ '\n' :: (l2 ++ '\n' :: rest))
      = [stripCR l1, stripCR l2] :=
    hlTake2_construct l1 l2 rest h1n h2n
  refine ⟨?_, ?_, ?_, ?_⟩
  · unfold prevEager
    dsimp only
    rw [e1, lines_crlf, lines_lf, getD_cons_cons_one, getD_cons_cons_one,
      jsLast_splitOnChar_space, jsLast_splitOnChar_space,
      afterLastSpace_append _ (by decide), jsTrim_append_ws _ (by decide)]
  · unfold curEager
    dsimp only
    rw [e1, lines_crlf, lines_lf, getD_cons_zero, getD_cons_zero,
      jsLast_splitOnChar_space, jsLast_splitOnChar_space,
      afterLastSpace_append _ (by decide), jsTrim_append_ws _ (by decide)]
  · unfold prevHighland
    dsimp only
    rw [e1, e1', e2', getD_cons_cons_one, getD_cons_cons_one,
      stripCR_append_cr, stripCR_of_not_mem h2r]
  · unfold curHighland
    dsimp only
    rw [e1, e1', e2', getD_cons_zero, getD_cons_zero,
      stripCR_append_cr, stripCR_of_not_mem h1r]

/-- Witness for C9 at a concrete header with filler. -/
theorem crlf_lf_same_tokens_witness :
    prevEager ⟨"w", wl1 ++ '\r' :: '\n' :: (wl2 ++ '\r' :: '\n' :: wrest), false⟩ =
      prevEager ⟨"w", wl1 ++ '\n' :: (wl2 ++ '\n' :: wrest), false⟩ ∧
    curEager ⟨"w", wl1 ++ '\r' :: '\n' :: (wl2 ++ '\r' :: '\n' :: wrest), false⟩ =
      curEager ⟨"w", wl1 ++ '\n' :: (wl2 ++ '\n' :: wrest), false⟩ ∧
    prevHighland ⟨"w", wl1 ++ '\r' :: '\n' :: (wl2 ++ '\r' :: '\n' :: wrest), false⟩ =
      prevHighland ⟨"w", wl1 ++ '\n' :: (wl2 ++ '\n' :: wrest), false⟩ ∧
    curHighland ⟨"w", wl1 ++ '\r' :: '\n' :: (wl2 ++ '\r' :: '\n' :: wrest), false⟩ =
      curHighland ⟨"w", wl1 ++ '\n' :: (wl2 ++ '\n' :: wrest), false⟩ :=
  crlf_lf_same_tokens "w" wl1 wl2 wrest (by decide) (by decide) (by decide) (by decide)

/-- Claim C10: every variant initializes `latest` with the non-empty
hardcoded literal `'20151009_194541'`, so the falsy-latest acceptance path
is never taken for the first file: in all four variants the first
processed file is accepted exactly when its extracted previous token
equals that literal. -/
theorem first_file_accept_iff_baseline (f : IncFile)
    (hgE : goodEagerFile f) (hgH : goodHighlandFile f) :
    baseline = jsStr "20151009_194541" ∧
    jsTruthy baseline = true ∧
    (accepts stepFilterEager baseline f = true ↔ prevEager f = baseline) ∧
    (accepts stepEachEager baseline f = true ↔ prevEager f = baseline) ∧
    (accepts stepFilterHighland baseline f = true ↔ prevHighland f = baseline) ∧
    (accepts stepEachHighland baseline f = true ↔ prevHighland f = baseline) := by
  have ht : jsTruthy baseline = true := rfl
  refine ⟨rfl, ht, ?_, ?_, ?_, ?_⟩
  · constructor
    · intro ha
      by_contra hne
      have hr := stepFilterEager_reject hgE ht (fun h => hne h.symm)
      unfold accepts at ha
      rw [hr] at ha
      simp at ha
    · intro hp
      have hr := stepFilterEager_accept hgE (Or.inr hp.symm)
      unfold accepts
      rw [hr]
  · constructor
    · intro ha
      by_contra hne
      have hr := stepEachEager_reject hgE ht (fun h => hne h.symm)
      unfold accepts at ha
      rw [hr] at ha
      simp at ha
    · intro hp
      have hr := stepEachEager_accept hgE (Or.inr hp.symm)
      unfold accepts
      rw [hr]
  · constructor
    · intro ha
      by_contra hne
      have hr := stepFilterHighland_reject hgH ht (fun h => hne h.symm)
      unfold accepts at ha
      rw [hr] at ha
      simp at ha
    · intro hp
      have hr := stepFilterHighland_accept hgH (Or.inr hp.symm)
      unfold accepts
      rw [hr]
  · constructor
    · intro ha
      by_contra hne
      have hr := stepEachHighland_reject hgH ht (fun h => hne h.symm)
      unfold accepts at ha
      rw [hr] at ha
      simp at ha
    · intro hp
      have hr := stepEachHighland_accept hgH (Or.inr hp.symm)
      unfold accepts
      rw [hr]

/-- Witness for C10 at the concrete first file `wf1`, whose previous token
is the baseline literal. -/
theorem first_file_accept_iff_baseline_witness :
    baseline = jsStr "20151009_194541" ∧
    jsTruthy baseline = true ∧
    (accepts stepFilterEager baseline wf1 = true ↔ prevEager wf1 = baseline) ∧
    (accepts stepEachEager baseline wf1 = true ↔ prevEager wf1 = baseline) ∧
    (accepts stepFilterHighland baseline wf1 = true ↔ prevHighland wf1 = baseline) ∧
    (accepts stepEachHighland baseline wf1 = true ↔ prevHighland wf1 = baseline) :=
  first_file_accept_iff_baseline wf1 (by decide) (by decide)
